import Mathlib

/-!
Verification development for the glioblastoma-hmm-progression repository.

The repository script (examples/mock_gbm_hmm.py) builds a small longitudinal
dataset, prepares a feature matrix and per-patient segment lengths, and then
delegates HMM training (Baum-Welch) and decoding (Viterbi) to a statistical
library.  The data-preparation part is embedded directly from the source.
The numerical engine itself is not part of the repository's source tree, so
its components are modelled from the specification (sections 4.1-4.6), as
marked by doc comments below.  All arithmetic is over ℚ; log-space values
(emission log-likelihoods, log-probabilities) are taken as rational inputs,
and a per-segment log-likelihood of negative infinity is represented by
`none : Option ℚ`.
-/

set_option autoImplicit false

namespace GbmHmm

/-! ### Numeric list primitives -/

/-- Sum of a list of rationals. -/
def rowSum (v : List ℚ) : ℚ := v.foldr (· + ·) 0

/-- Sum of a list of naturals. -/
def sumN (l : List ℕ) : ℕ := l.foldr (· + ·) 0

/-- Sum of a list of integers. -/
def sumZ (l : List ℤ) : ℤ := l.foldr (· + ·) 0

theorem rowSum_nil : rowSum [] = 0 := rfl

theorem rowSum_cons (x : ℚ) (v : List ℚ) : rowSum (x :: v) = x + rowSum v := rfl

theorem rowSum_pos {v : List ℚ} (h : ∀ x ∈ v, 0 < x) (hne : v ≠ []) : 0 < rowSum v := by
  induction v with
  | nil => exact absurd rfl hne
  | cons a t ih =>
    rcases t with _ | ⟨b, t⟩
    · simpa [rowSum_cons, rowSum_nil] using h a (by simp)
    · have ha : 0 < a := h a (by simp)
      have ht : 0 < rowSum (b :: t) := ih (fun x hx => h x (List.mem_cons_of_mem _ hx)) (by simp)
      rw [rowSum_cons]
      positivity

theorem rowSum_map_div (v : List ℚ) (s : ℚ) :
    rowSum (v.map (fun x => x / s)) = rowSum v / s := by
  induction v with
  | nil => simp [rowSum]
  | cons a t ih => simp [rowSum_cons, ih, add_div]

/-! ### Argmax with lowest-index tie-breaking (spec 4.5) -/

/-- Running best (index, value); a new element replaces the best only when it
is strictly larger, so on ties the earliest index is kept. -/
def argmaxAux : ℕ × ℚ → ℕ → List ℚ → ℕ × ℚ
  | best, _, [] => best
  | best, i, x :: rest => argmaxAux (if best.2 < x then (i, x) else best) (i + 1) rest

/-- Index of the first occurrence of the maximum of a list (0 on the empty list). -/
def argmaxLowest (l : List ℚ) : ℕ :=
  match l with
  | [] => 0
  | x :: rest => (argmaxAux (0, x) 1 rest).1

/-- Maximum value of a list (0 on the empty list). -/
def maxQ (l : List ℚ) : ℚ :=
  match l with
  | [] => 0
  | x :: rest => (argmaxAux (0, x) 1 rest).2

/-- The index `i` is the position of the first occurrence of the maximum of `l`:
it is in range, its value dominates every entry, and every strictly earlier
entry is strictly below it. -/
def IsLeastArgmax (l : List ℚ) (i : ℕ) : Prop :=
  i < l.length ∧ (∀ j, j < l.length → l.getD j 0 ≤ l.getD i 0) ∧
    ∀ j, j < i → l.getD j 0 < l.getD i 0

theorem argmaxAux_spec (xs : List ℚ) : ∀ (b i : ℕ) (v : ℚ),
    v ≤ (argmaxAux (b, v) i xs).2 ∧
    (∀ t, t < xs.length → xs.getD t 0 ≤ (argmaxAux (b, v) i xs).2) ∧
    (((argmaxAux (b, v) i xs).1 = b ∧ (argmaxAux (b, v) i xs).2 = v) ∨
      ∃ t, t < xs.length ∧ (argmaxAux (b, v) i xs).1 = i + t ∧
        xs.getD t 0 = (argmaxAux (b, v) i xs).2 ∧ v < (argmaxAux (b, v) i xs).2 ∧
        ∀ s, s < t → xs.getD s 0 < (argmaxAux (b, v) i xs).2) := by
  induction xs with
  | nil =>
    intro b i v
    refine ⟨le_refl v, ?_, Or.inl ⟨rfl, rfl⟩⟩
    intro t ht
    exact absurd ht (by simp)
  | cons x rest ih =>
    intro b i v
    by_cases hvx : v < x
    · have hred : argmaxAux (b, v) i (x :: rest) = argmaxAux (i, x) (i + 1) rest := by
        simp [argmaxAux, hvx]
      obtain ⟨ha, hb, hc⟩ := ih i (i + 1) x
      rw [hred]
      refine ⟨le_of_lt (lt_of_lt_of_le hvx ha), ?_, ?_⟩
      · intro t ht
        rcases t with _ | s
        · simpa using ha
        · simpa using hb s (by simpa using ht)
      · rcases hc with ⟨hj, hm⟩ | ⟨t, htlen, hj, hval, hlt, hbefore⟩
        · refine Or.inr ⟨0, by simp, by omega, ?_, ?_, ?_⟩
          · simpa using hm.symm
          · rw [hm]; exact hvx
          · intro s hs; omega
        · refine Or.inr ⟨t + 1, by simpa using htlen, by omega, ?_, ?_, ?_⟩
          · simpa using hval
          · exact lt_trans hvx hlt
          · intro s hs
            rcases s with _ | s'
            · simpa using hlt
            · simpa using hbefore s' (by omega)
    · have hred : argmaxAux (b, v) i (x :: rest) = argmaxAux (b, v) (i + 1) rest := by
        simp [argmaxAux, hvx]
      obtain ⟨ha, hb, hc⟩ := ih b (i + 1) v
      rw [hred]
      have hxv : x ≤ v := le_of_not_lt hvx
      refine ⟨ha, ?_, ?_⟩
      · intro t ht
        rcases t with _ | s
        · simpa using le_trans hxv ha
        · simpa using hb s (by simpa using ht)
      · rcases hc with ⟨hj, hm⟩ | ⟨t, htlen, hj, hval, hlt, hbefore⟩
        · exact Or.inl ⟨hj, hm⟩
        · refine Or.inr ⟨t + 1, by simpa using htlen, by omega, ?_, hlt, ?_⟩
          · simpa using hval
          · intro s hs
            rcases s with _ | s'
            · simpa using lt_of_le_of_lt hxv hlt
            · simpa using hbefore s' (by omega)

theorem maxQ_is_max (l : List ℚ) (h : l ≠ []) :
    (∀ j, j < l.length → l.getD j 0 ≤ maxQ l) ∧
      ∃ j, j < l.length ∧ l.getD j 0 = maxQ l := by
  rcases l with _ | ⟨x, rest⟩
  · exact absurd rfl h
  obtain ⟨ha, hb, hc⟩ := argmaxAux_spec rest 0 1 x
  have hmq : maxQ (x :: rest) = (argmaxAux (0, x) 1 rest).2 := rfl
  constructor
  · intro j hj
    rcases j with _ | s
    · rw [List.getD_cons_zero, hmq]; exact ha
    · rw [List.getD_cons_succ, hmq]
      exact hb s (by simpa using hj)
  · rcases hc with ⟨hj, hm⟩ | ⟨t, htlen, hj, hval, hlt, hbefore⟩
    · exact ⟨0, by simp, by rw [List.getD_cons_zero, hmq, hm]⟩
    · refine ⟨t + 1, by simpa using htlen, ?_⟩
      rw [List.getD_cons_succ, hmq]; exact hval

theorem argmaxLowest_spec (l : List ℚ) (h : l ≠ []) : IsLeastArgmax l (argmaxLowest l) := by
  rcases l with _ | ⟨x, rest⟩
  · exact absurd rfl h
  obtain ⟨ha, hb, hc⟩ := argmaxAux_spec rest 0 1 x
  rcases hc with ⟨hj, hm⟩ | ⟨t, htlen, hj, hval, hlt, hbefore⟩
  · have hL : argmaxLowest (x :: rest) = 0 := hj
    refine ⟨?_, ?_, ?_⟩
    · rw [hL]; simp
    · intro j hjlen
      rw [hL, List.getD_cons_zero]
      rcases j with _ | s
      · rw [List.getD_cons_zero]
      · rw [List.getD_cons_succ]
        have := hb s (by simpa using hjlen)
        rw [hm] at this
        exact this
    · intro j hjlt
      rw [hL] at hjlt
      omega
  · have hL : argmaxLowest (x :: rest) = t + 1 := by
      show (argmaxAux (0, x) 1 rest).1 = t + 1
      omega
    have hgd : (x :: rest).getD (t + 1) 0 = (argmaxAux (0, x) 1 rest).2 := by
      rw [List.getD_cons_succ]; exact hval
    refine ⟨?_, ?_, ?_⟩
    · rw [hL]; simp only [List.length_cons]; omega
    · intro j hjlen
      rw [hL, hgd]
      rcases j with _ | s
      · rw [List.getD_cons_zero]; exact le_of_lt hlt
      · rw [List.getD_cons_succ]
        exact hb s (by simpa using hjlen)
    · intro j hjlt
      rw [hL] at hjlt
      rw [hL, hgd]
      rcases j with _ | s
      · rw [List.getD_cons_zero]; exact hlt
      · rw [List.getD_cons_succ]
        exact hbefore s (by omega)

theorem argmaxLowest_getD_eq_maxQ (l : List ℚ) (h : l ≠ []) :
    l.getD (argmaxLowest l) 0 = maxQ l := by
  rcases l with _ | ⟨x, rest⟩
  · exact absurd rfl h
  obtain ⟨ha, hb, hc⟩ := argmaxAux_spec rest 0 1 x
  have hmq : maxQ (x :: rest) = (argmaxAux (0, x) 1 rest).2 := rfl
  rcases hc with ⟨hj, hm⟩ | ⟨t, htlen, hj, hval, hlt, hbefore⟩
  · have hL : argmaxLowest (x :: rest) = 0 := hj
    rw [hL, List.getD_cons_zero, hmq, hm]
  · have hL : argmaxLowest (x :: rest) = t + 1 := by
      show (argmaxAux (0, x) 1 rest).1 = t + 1
      omega
    rw [hL, List.getD_cons_succ, hmq]
    exact hval

/-! ### Viterbi decoder (spec 4.5) -/

/-- Modelled from the spec: the Viterbi decoder of section 4.5 is implemented by
the external statistical library and is absent from the repository source; it is
reconstructed here from the spec's recurrence.  Initial scores
`delta[0][k] = log pi[k] + B[0][k]`. -/
def viterbiInit (logpi b0 : List ℚ) : List ℚ := List.zipWith (· + ·) logpi b0

/-- Modelled from the spec: candidate scores `delta[t-1][j] + log A[j][k]` over all
previous states `j`, for a fixed target state `k`. -/
def transScores (logA : List (List ℚ)) (prev : List ℚ) (k : ℕ) : List ℚ :=
  List.zipWith (fun p row => p + row.getD k 0) prev logA

/-- Modelled from the spec: `delta[t][k] = max_j(delta[t-1][j] + log A[j][k]) + B[t][k]`. -/
def deltaNext (logA : List (List ℚ)) (prev bt : List ℚ) : List ℚ :=
  (List.range bt.length).map (fun k => maxQ (transScores logA prev k) + bt.getD k 0)

/-- Modelled from the spec: back-pointers `psi[t][k] = argmax_j(delta[t-1][j] + log A[j][k])`,
ties broken by lowest state index. -/
def psiNext (logA : List (List ℚ)) (prev bt : List ℚ) : List ℕ :=
  (List.range bt.length).map (fun k => argmaxLowest (transScores logA prev k))

/-- Modelled from the spec: forward dynamic-programming pass over the emission
rows after the first, returning the final score vector and the back-pointer
tables in chronological order. -/
def viterbiForward (logA : List (List ℚ)) (delta : List ℚ) :
    List (List ℚ) → List ℚ × List (List ℕ)
  | [] => (delta, [])
  | bt :: rest =>
      let r := viterbiForward logA (deltaNext logA delta bt) rest
      (r.1, psiNext logA delta bt :: r.2)

/-- Modelled from the spec: path reconstruction following back-pointers from
`T-1` down to `0`; the first argument is the back-pointer tables in reverse
chronological order. -/
def backtrack : List (List ℕ) → ℕ → List ℕ → List ℕ
  | [], s, acc => s :: acc
  | psi :: rest, s, acc => backtrack rest (psi.getD s 0) (s :: acc)

/-- Modelled from the spec: full Viterbi decode of one segment, given log-space
initial scores, log-space transition scores and per-row emission log-likelihoods. -/
def viterbi (logpi : List ℚ) (logA : List (List ℚ)) (B : List (List ℚ)) : List ℕ :=
  match B with
  | [] => []
  | b0 :: rest =>
      let r := viterbiForward logA (viterbiInit logpi b0) rest
      backtrack r.2.reverse (argmaxLowest r.1) []

theorem getD_map_range {α : Type} (f : ℕ → α) (d : α) (n k : ℕ) (h : k < n) :
    ((List.range n).map f).getD k d = f k := by
  rw [List.getD_eq_getElem?_getD, List.getElem?_map, List.getElem?_range h]
  rfl

theorem transScores_ne_nil (logA : List (List ℚ)) (prev : List ℚ) (k : ℕ)
    (hp : prev ≠ []) (hA : logA ≠ []) : transScores logA prev k ≠ [] := by
  have hlen : (transScores logA prev k).length = min prev.length logA.length := by
    simp [transScores]
  have hp1 : 0 < prev.length := List.length_pos.mpr hp
  have hA1 : 0 < logA.length := List.length_pos.mpr hA
  intro hnil
  rw [hnil] at hlen
  simp at hlen
  omega

theorem backtrack_length (psis : List (List ℕ)) :
    ∀ s acc, (backtrack psis s acc).length = psis.length + acc.length + 1 := by
  induction psis with
  | nil => intro s acc; simp [backtrack]
  | cons psi rest ih =>
    intro s acc
    rw [backtrack, ih]
    simp
    omega

theorem viterbiForward_psis_length (logA : List (List ℚ)) (rest : List (List ℚ)) :
    ∀ delta, ((viterbiForward logA delta rest).2).length = rest.length := by
  induction rest with
  | nil => intro delta; rfl
  | cons bt r ih =>
    intro delta
    rw [viterbiForward]
    simp [ih]

theorem viterbi_length (logpi : List ℚ) (logA : List (List ℚ)) (B : List (List ℚ)) :
    (viterbi logpi logA B).length = B.length := by
  rcases B with _ | ⟨b0, rest⟩
  · rfl
  · rw [viterbi, backtrack_length]
    simp [viterbiForward_psis_length]

/-! ### Probability rows and model parameters (spec section 3) -/

/-- Modelled from the spec: floor every entry of a probability row at `eps` so
that no entry is exactly zero (which would make a state unreachable). -/
def floorAt (eps : ℚ) (v : List ℚ) : List ℚ := v.map (fun x => max x eps)

/-- Modelled from the spec: renormalization of a probability row after each
update — floor the entries at `eps`, then divide by the row total. -/
def renormalize (eps : ℚ) (v : List ℚ) : List ℚ :=
  (floorAt eps v).map (fun x => x / rowSum (floorAt eps v))

/-- Modelled from the spec: the parameter set held by the model container —
initial distribution, transition matrix, and per-state emission means and
covariance matrices (spec section 3).  Absent from the repository source,
which delegates it to the external library. -/
structure Params where
  pi : List ℚ
  A : List (List ℚ)
  means : List (List ℚ)
  covs : List (List (List ℚ))
  deriving DecidableEq, Repr

/-- Modelled from the spec: renormalize the initial distribution and every row
of the transition matrix (applied after each update; emission parameters are
not probability rows and are untouched). -/
def normalizeParams (eps : ℚ) (p : Params) : Params :=
  ⟨renormalize eps p.pi, p.A.map (renormalize eps), p.means, p.covs⟩

/-- Modelled from the spec: training configuration surfaced to callers
(spec section 6): probability floor, convergence tolerance, internal-consistency
tolerance for log-likelihood decreases, iteration cap, and random seed. -/
structure Config where
  eps : ℚ
  tol : ℚ
  guard : ℚ
  maxIter : ℕ
  seed : ℕ
  deriving DecidableEq, Repr

/-! ### Dense vector and matrix helpers (spec 4.1) -/

/-- Componentwise vector sum. -/
def vecAdd (a b : List ℚ) : List ℚ := List.zipWith (· + ·) a b

/-- Componentwise vector difference. -/
def vecSub (a b : List ℚ) : List ℚ := List.zipWith (· - ·) a b

/-- Scalar multiple of a vector. -/
def vecScale (c : ℚ) (v : List ℚ) : List ℚ := v.map (fun x => c * x)

/-- Mean vector of a list of rows (the zero vector of width `d` when empty). -/
def meanVec (d : ℕ) (rows : List (List ℚ)) : List ℚ :=
  if rows.length = 0 then List.replicate d 0
  else vecScale (1 / (rows.length : ℚ)) (rows.foldr vecAdd (List.replicate d 0))

/-- Outer product of two vectors. -/
def outerProd (u v : List ℚ) : List (List ℚ) := u.map (fun ui => v.map (fun vj => ui * vj))

/-- Componentwise matrix sum. -/
def matAddL (a b : List (List ℚ)) : List (List ℚ) := List.zipWith vecAdd a b

/-- Scalar multiple of a matrix. -/
def matScale (c : ℚ) (m : List (List ℚ)) : List (List ℚ) := m.map (vecScale c)

/-- Zero matrix of size `d`. -/
def zeroMat (d : ℕ) : List (List ℚ) := List.replicate d (List.replicate d 0)

/-- Identity matrix of size `d`. -/
def idMat (d : ℕ) : List (List ℚ) :=
  (List.range d).map (fun i => (List.range d).map (fun j => if i = j then (1 : ℚ) else 0))

/-- Sample covariance of a list of rows (identity of width `d` when empty, so
that an empty initialization group still yields a positive-definite matrix). -/
def sampleCov (d : ℕ) (rows : List (List ℚ)) : List (List ℚ) :=
  if rows.length = 0 then idMat d
  else
    matScale (1 / (rows.length : ℚ))
      (rows.foldr
        (fun x acc => matAddL (outerProd (vecSub x (meanVec d rows)) (vecSub x (meanVec d rows))) acc)
        (zeroMat d))

/-- Partition the observation rows into `k` contiguous, nearly even groups. -/
def chunksOf (k : ℕ) (obs : List (List ℚ)) : List (List (List ℚ)) :=
  (List.range k).map (fun i =>
    (obs.drop (i * obs.length / k)).take ((i + 1) * obs.length / k - i * obs.length / k))

/-- Modelled from the spec: deterministic, seed-indexed initialization
(spec 4.4) — uniform initial distribution, near-uniform transition rows with a
small seed-derived jitter to break ties, and per-group sample mean and
covariance from an even partition of the observations.  Absent from the
repository source, which delegates it to the external library. -/
def initParams (seed k : ℕ) (obs : List (List ℚ)) : Params :=
  let d := (obs.headD []).length
  let groups := chunksOf k obs
  ⟨List.replicate k (1 / (k : ℚ)),
    (List.range k).map (fun i =>
      renormalize (1 / 1000) ((List.range k).map (fun j =>
        1 + (((seed + i * k + j) % 5 : ℕ) : ℚ) / 100))),
    groups.map (meanVec d),
    groups.map (sampleCov d)⟩

/-! ### Error taxonomy and trainer (spec sections 4.4, 4.6, 7) -/

/-- Modelled from the spec: the error taxonomy of section 7. -/
inductive TrainError
  | invalidInput
  | nonPositiveDefinite
  | internalConsistency
  deriving DecidableEq, Repr

/-- Modelled from the spec: input validation of `fit` (spec 4.6) — the segment
lengths must sum to the number of observation rows, every length must be
positive, and the state count must be at least 1. -/
def validInput (obs : List (List ℚ)) (lengths : List ℤ) (k : ℕ) : Bool :=
  decide (sumZ lengths = (obs.length : ℤ)) &&
    lengths.all (fun l => decide (0 < l)) && decide (1 ≤ k)

/-- Modelled from the spec: the Baum-Welch iteration loop (spec 4.4).  `step`
is one combined E-step plus raw M-step, returning updated parameters and the
total log-likelihood of the iteration; the loop renormalizes the probability
rows after each update, raises an internal-consistency error when the
log-likelihood decreases by more than `guard`, stops when the increase falls
below `tol`, and otherwise recurses until the iteration budget is exhausted.
Returns the final parameters and the chronological log-likelihood trace of the
iterations after the first. -/
def fitLoop (step : Params → Params × ℚ) (eps tol guard : ℚ) :
    ℕ → Params → ℚ → Except TrainError (Params × List ℚ)
  | 0, p, _ => .ok (p, [])
  | n + 1, p, l0 =>
      let ll := (step p).2
      let q := normalizeParams eps (step p).1
      if ll < l0 - guard then .error .internalConsistency
      else if ll - l0 < tol then .ok (q, [ll])
      else
        match fitLoop step eps tol guard n q ll with
        | .error e => .error e
        | .ok (r, tr) => .ok (r, ll :: tr)

/-- Modelled from the spec: `fit(observations, lengths, k, config)` (spec 4.6).
Validation errors are returned before any computation begins; otherwise the
parameters are initialized deterministically from the seed, one EM step runs,
and the iteration loop continues under the budget.  The returned trace lists
the total log-likelihood of every iteration in order. -/
def fit (step : Params → Params × ℚ) (cfg : Config) (obs : List (List ℚ))
    (lengths : List ℤ) (k : ℕ) : Except TrainError (Params × List ℚ) :=
  if validInput obs lengths k then
    match fitLoop step cfg.eps cfg.tol cfg.guard (cfg.maxIter - 1)
        (normalizeParams cfg.eps (step (initParams cfg.seed k obs)).1)
        (step (initParams cfg.seed k obs)).2 with
    | .error e => .error e
    | .ok (q, tr) => .ok (q, (step (initParams cfg.seed k obs)).2 :: tr)
  else .error .invalidInput

theorem renormalize_valid (eps : ℚ) (v : List ℚ) (heps : 0 < eps) (hv : v ≠ []) :
    (∀ x ∈ renormalize eps v, 0 < x) ∧ rowSum (renormalize eps v) = 1 := by
  have hpos : ∀ x ∈ floorAt eps v, 0 < x := by
    intro x hx
    obtain ⟨a, _, rfl⟩ := List.mem_map.mp hx
    exact lt_of_lt_of_le heps (le_max_right a eps)
  have hne : floorAt eps v ≠ [] := by
    intro h
    exact hv (List.map_eq_nil_iff.mp h)
  have hS : 0 < rowSum (floorAt eps v) := rowSum_pos hpos hne
  constructor
  · intro x hx
    obtain ⟨a, ha, rfl⟩ := List.mem_map.mp hx
    exact div_pos (hpos a ha) hS
  · rw [renormalize, rowSum_map_div, div_self (ne_of_gt hS)]

theorem fitLoop_ok_chain (step : Params → Params × ℚ) (eps tol guard : ℚ) (n : ℕ) :
    ∀ p l0 q tr, fitLoop step eps tol guard n p l0 = .ok (q, tr) →
      List.Chain' (fun a b => a - guard ≤ b) (l0 :: tr) := by
  induction n with
  | zero =>
    intro p l0 q tr h
    rw [fitLoop] at h
    injection h with h2
    injection h2 with h3 h4
    subst h4
    simp
  | succ n ih =>
    intro p l0 q tr h
    rw [fitLoop] at h
    by_cases hdec : (step p).2 < l0 - guard
    · rw [if_pos hdec] at h
      exact absurd h (by simp)
    · rw [if_neg hdec] at h
      have hge : l0 - guard ≤ (step p).2 := le_of_not_lt hdec
      by_cases hconv : (step p).2 - l0 < tol
      · rw [if_pos hconv] at h
        injection h with h2
        injection h2 with h3 h4
        subst h4
        simp only [List.chain'_cons, List.chain'_singleton, and_true]
        exact hge
      · rw [if_neg hconv] at h
        rcases hrec : fitLoop step eps tol guard n (normalizeParams eps (step p).1) (step p).2
          with e | ⟨r, tr2⟩
        · rw [hrec] at h
          exact absurd h (by simp)
        · rw [hrec] at h
          injection h with h2
          injection h2 with h3 h4
          subst h4
          have := ih _ _ _ _ hrec
          exact List.Chain'.cons hge this

theorem fitLoop_ok_normalized (step : Params → Params × ℚ) (eps tol guard : ℚ) (n : ℕ) :
    ∀ p l0 q tr, fitLoop step eps tol guard n p l0 = .ok (q, tr) →
      (∃ p0, p = normalizeParams eps p0) → ∃ p1, q = normalizeParams eps p1 := by
  induction n with
  | zero =>
    intro p l0 q tr h hp
    rw [fitLoop] at h
    injection h with h2
    injection h2 with h3 h4
    subst h3
    exact hp
  | succ n ih =>
    intro p l0 q tr h hp
    rw [fitLoop] at h
    by_cases hdec : (step p).2 < l0 - guard
    · rw [if_pos hdec] at h
      exact absurd h (by simp)
    · rw [if_neg hdec] at h
      by_cases hconv : (step p).2 - l0 < tol
      · rw [if_pos hconv] at h
        injection h with h2
        injection h2 with h3 h4
        subst h3
        exact ⟨(step p).1, rfl⟩
      · rw [if_neg hconv] at h
        rcases hrec : fitLoop step eps tol guard n (normalizeParams eps (step p).1) (step p).2
          with e | ⟨r, tr2⟩
        · rw [hrec] at h
          exact absurd h (by simp)
        · rw [hrec] at h
          injection h with h2
          injection h2 with h3 h4
          subst h3
          exact ih _ _ _ _ hrec ⟨(step p).1, rfl⟩

theorem fit_ok_elim (step : Params → Params × ℚ) (cfg : Config) (obs : List (List ℚ))
    (lengths : List ℤ) (k : ℕ) (p : Params) (tr : List ℚ)
    (h : fit step cfg obs lengths k = .ok (p, tr)) :
    validInput obs lengths k = true ∧
      ∃ tr2, tr = (step (initParams cfg.seed k obs)).2 :: tr2 ∧
        fitLoop step cfg.eps cfg.tol cfg.guard (cfg.maxIter - 1)
          (normalizeParams cfg.eps (step (initParams cfg.seed k obs)).1)
          (step (initParams cfg.seed k obs)).2 = .ok (p, tr2) := by
  by_cases hv : validInput obs lengths k
  · rw [fit, if_pos hv] at h
    split at h
    · exact absurd h (by simp)
    · rename_i q tr2 heq
      injection h with h2
      injection h2 with h3 h4
      subst h3
      subst h4
      exact ⟨hv, tr2, rfl, heq⟩
  · rw [fit, if_neg hv] at h
    exact absurd h (by simp)

/-! ### Model container (spec 4.6, section 7) -/

/-- Modelled from the spec: the model container owns the previously fitted
parameters, if any. -/
structure Container where
  fitted : Option Params
  deriving DecidableEq, Repr

/-- Modelled from the spec: a `fit` call through the container.  On success the
container holds exactly the final returned parameter set; on any error the
container is left untouched. -/
def containerFit (step : Params → Params × ℚ) (cfg : Config) (obs : List (List ℚ))
    (lengths : List ℤ) (k : ℕ) (c : Container) :
    Container × Except TrainError (Params × List ℚ) :=
  match fit step cfg obs lengths k with
  | .error e => (c, .error e)
  | .ok r => (⟨some r.1⟩, .ok r)

/-- Modelled from the spec: shape validation of `decode` against the fitted
model's state count and dimensionality. -/
def decodeShapeOk (p : Params) (obs : List (List ℚ)) (lengths : List ℤ) : Bool :=
  validInput obs lengths p.pi.length &&
    obs.all (fun r => decide (r.length = (p.means.headD []).length))

/-- Split the observation rows into the contiguous segments described by the
lengths list. -/
def segmentsOf (lengths : List ℤ) (obs : List (List ℚ)) : List (List (List ℚ)) :=
  match lengths with
  | [] => []
  | l :: rest => obs.take l.toNat :: segmentsOf rest (obs.drop l.toNat)

/-- Modelled from the spec: per-segment emission log-likelihood matrix
`B[t][k]`, produced by an abstract per-state emission log-density `logB`
(the Gaussian log-density of spec 4.2 involves logarithms and is therefore
taken as a parameter of the model). -/
def buildB (logB : List ℚ → ℕ → ℚ) (kk : ℕ) (seg : List (List ℚ)) : List (List ℚ) :=
  seg.map (fun x => (List.range kk).map (logB x))

/-- Modelled from the spec: Viterbi decoding of every segment, concatenated in
input order; `logQ` is the abstract logarithm applied to the stored
probabilities. -/
def decodeParams (logQ : ℚ → ℚ) (logB : List ℚ → ℕ → ℚ) (p : Params)
    (obs : List (List ℚ)) (lengths : List ℤ) : List ℕ :=
  ((segmentsOf lengths obs).map (fun seg =>
    viterbi (p.pi.map logQ) (p.A.map (fun row => row.map logQ))
      (buildB logB p.pi.length seg))).flatten

/-- Modelled from the spec: a `decode` call through the container; it only ever
reads the fitted parameters. -/
def containerDecode (logQ : ℚ → ℚ) (logB : List ℚ → ℕ → ℚ) (c : Container)
    (obs : List (List ℚ)) (lengths : List ℤ) :
    Container × Except TrainError (List ℕ) :=
  match c.fitted with
  | none => (c, .error .invalidInput)
  | some p =>
      if decodeShapeOk p obs lengths then (c, .ok (decodeParams logQ logB p obs lengths))
      else (c, .error .invalidInput)

/-! ### Cholesky pivots with one regularized retry (spec 4.1, 4.2) -/

/-- Schur complement of the leading entry of a square matrix: what remains to
be decomposed after one elimination step of the decomposition. -/
def schurComplement (m : List (List ℚ)) : List (List ℚ) :=
  m.tail.map (fun r =>
    List.zipWith (fun rij r0j => rij - r.headD 0 * r0j / (m.headD []).headD 0)
      r.tail (m.headD []).tail)

/-- Modelled from the spec: the pivots of the Cholesky-type decomposition of a
symmetric matrix, computed by successive elimination; fails with
`NonPositiveDefiniteError` as soon as a non-positive pivot is encountered
(spec 4.1).  Absent from the repository source, which delegates it to the
external library. -/
def ldlPivots : ℕ → List (List ℚ) → Except TrainError (List ℚ)
  | 0, _ => .ok []
  | n + 1, m =>
      if (m.headD []).headD 0 ≤ 0 then .error .nonPositiveDefinite
      else
        match ldlPivots n (schurComplement m) with
        | .error e => .error e
        | .ok ds => .ok ((m.headD []).headD 0 :: ds)

/-- Pivot sequence of the full matrix. -/
def cholesky (m : List (List ℚ)) : Except TrainError (List ℚ) := ldlPivots m.length m

/-- Add `r` to every diagonal entry (the small diagonal regularization of
spec 4.1). -/
def addDiag (r : ℚ) (m : List (List ℚ)) : List (List ℚ) :=
  (List.range m.length).map (fun i =>
    (List.range (m.getD i []).length).map (fun j =>
      if i = j then (m.getD i []).getD j 0 + r else (m.getD i []).getD j 0))

/-- Modelled from the spec: the emission model's decomposition protocol —
attempt the decomposition, on failure add the diagonal regularization and
retry exactly once, and propagate `NonPositiveDefiniteError` if the retried
decomposition still fails (spec 4.1, 4.2). -/
def cholWithRetry (r : ℚ) (m : List (List ℚ)) : Except TrainError (List ℚ) :=
  match cholesky m with
  | .ok ds => .ok ds
  | .error _ =>
      match cholesky (addDiag r m) with
      | .ok ds => .ok ds
      | .error e => .error e

theorem ldlPivots_ok_pos (n : ℕ) :
    ∀ m ds, ldlPivots n m = .ok ds → ∀ x ∈ ds, 0 < x := by
  induction n with
  | zero =>
    intro m ds h x hx
    rw [ldlPivots] at h
    injection h with h2
    subst h2
    exact absurd hx (by simp)
  | succ n ih =>
    intro m ds h x hx
    rw [ldlPivots] at h
    by_cases hp : (m.headD []).headD 0 ≤ 0
    · rw [if_pos hp] at h
      exact absurd h (by simp)
    · rw [if_neg hp] at h
      rcases hrec : ldlPivots n (schurComplement m) with e | ds2
      · rw [hrec] at h
        exact absurd h (by simp)
      · rw [hrec] at h
        injection h with h2
        subst h2
        rcases List.mem_cons.mp hx with rfl | hx2
        · exact lt_of_not_le hp
        · exact ih _ _ hrec x hx2

theorem ldlPivots_error_eq (n : ℕ) :
    ∀ m e, ldlPivots n m = .error e → e = .nonPositiveDefinite := by
  induction n with
  | zero =>
    intro m e h
    rw [ldlPivots] at h
    exact absurd h (by simp)
  | succ n ih =>
    intro m e h
    rw [ldlPivots] at h
    by_cases hp : (m.headD []).headD 0 ≤ 0
    · rw [if_pos hp] at h
      injection h with h2
      exact h2.symm
    · rw [if_neg hp] at h
      rcases hrec : ldlPivots n (schurComplement m) with e2 | ds2
      · rw [hrec] at h
        injection h with h2
        subst h2
        exact ih _ _ hrec
      · rw [hrec] at h
        exact absurd h (by simp)

/-! ### E-step accumulation with exclusion of impossible segments (spec 4.3, 4.4) -/

/-- Modelled from the spec: the per-iteration E-step accumulator — total
log-likelihood, accumulated sufficient statistics, and the diagnostic record of
excluded segments. -/
structure EStepOut (σ : Type) where
  totalLL : ℚ
  stats : List ℚ
  excluded : List σ

/-- Modelled from the spec: E-step accumulation across segments (spec 4.4 step
1 with the failure mode of spec 4.3).  `ll` gives each segment's sequence
log-likelihood, with `none` standing for negative infinity, and `st` gives the
segment's contribution to the sufficient statistics.  A segment whose
log-likelihood is negative infinity contributes nothing to the accumulators and
is recorded as a diagnostic; the function is total, so the training iteration
never aborts because of such a segment. -/
def eStep {σ : Type} (ll : σ → Option ℚ) (st : σ → List ℚ) (d : ℕ) :
    List σ → EStepOut σ
  | [] => ⟨0, List.replicate d 0, []⟩
  | s :: rest =>
      match ll s with
      | none =>
          ⟨(eStep ll st d rest).totalLL, (eStep ll st d rest).stats,
            s :: (eStep ll st d rest).excluded⟩
      | some q =>
          ⟨q + (eStep ll st d rest).totalLL, vecAdd (st s) (eStep ll st d rest).stats,
            (eStep ll st d rest).excluded⟩

/-! ### Data preparation (embedded from examples/mock_gbm_hmm.py, lines 35-91)

The script builds a dataframe of (patient_id, timepoint, tumor_volume,
enhancing_volume) rows, sorts it by patient then timepoint, takes the two
volume columns as the feature matrix `X`, and takes the per-patient group
sizes as the lengths list.  Patient identifiers (strings P1, P2, P3 in the
script) are modelled as naturals preserving their order; since the frame is
sorted by patient first, the pandas groupby sizes are exactly the sizes of
the maximal runs of equal patient ids in the sorted row list. -/

/-- One record of the mock dataset (source lines 35-63). -/
structure Row where
  patient_id : ℕ
  timepoint : ℕ
  tumor_volume : ℚ
  enhancing_volume : ℚ
  deriving DecidableEq, Repr

/-- Lexicographic comparison by patient then timepoint, as in
`df.sort_values(["patient_id", "timepoint"])` (source line 75). -/
def rowLE (a b : Row) : Bool :=
  decide (a.patient_id < b.patient_id) ||
    (decide (a.patient_id = b.patient_id) && decide (a.timepoint ≤ b.timepoint))

/-- Insertion step of a stable insertion sort. -/
def insertRow (a : Row) : List Row → List Row
  | [] => [a]
  | b :: rest => if rowLE a b then a :: b :: rest else b :: insertRow a rest

/-- Stable sort of the dataset rows (source line 75). -/
def sortRows : List Row → List Row
  | [] => []
  | a :: rest => insertRow a (sortRows rest)

/-- Sizes of the maximal runs of consecutive equal elements, with a pending
run of the element `a` of current size `n`. -/
def runLengthsAux {α : Type} [DecidableEq α] (a : α) (n : ℕ) : List α → List ℕ
  | [] => [n]
  | b :: rest => if b = a then runLengthsAux a (n + 1) rest else n :: runLengthsAux b 1 rest

/-- Sizes of the maximal runs of consecutive equal elements; on a list sorted
by patient id these are the groupby sizes of source lines 81-85. -/
def runLengths {α : Type} [DecidableEq α] : List α → List ℕ
  | [] => []
  | a :: rest => runLengthsAux a 1 rest

/-- The two feature columns of one row (source line 78). -/
def featuresOf (r : Row) : List ℚ := [r.tumor_volume, r.enhancing_volume]

/-- Data preparation of source lines 75-85: the sorted feature matrix and the
per-patient lengths list. -/
def prepare (rows : List Row) : List (List ℚ) × List ℕ :=
  ((sortRows rows).map featuresOf,
    runLengths ((sortRows rows).map (fun r => r.patient_id)))

/-- The script's mock dataset (source lines 35-58), with patients P1, P2, P3
numbered 1, 2, 3. -/
def data_rows : List Row :=
  [⟨1, 0, 22, 8⟩, ⟨1, 1, 23, 81/10⟩, ⟨1, 2, 43/2, 78/10⟩, ⟨1, 3, 223/10, 79/10⟩,
    ⟨1, 4, 218/10, 77/10⟩,
    ⟨2, 0, 28, 10⟩, ⟨2, 1, 30, 11⟩, ⟨2, 2, 40, 16⟩, ⟨2, 3, 55, 23⟩, ⟨2, 4, 70, 30⟩,
    ⟨3, 0, 24, 9⟩, ⟨3, 1, 32, 13⟩, ⟨3, 2, 38, 16⟩, ⟨3, 3, 30, 23/2⟩, ⟨3, 4, 27, 10⟩]

theorem runLengthsAux_pos {α : Type} [DecidableEq α] (l : List α) :
    ∀ (a : α) (n : ℕ), 0 < n → ∀ x ∈ runLengthsAux a n l, 0 < x := by
  induction l with
  | nil =>
    intro a n hn x hx
    rw [runLengthsAux] at hx
    rcases List.mem_singleton.mp hx with rfl
    exact hn
  | cons b rest ih =>
    intro a n hn x hx
    rw [runLengthsAux] at hx
    by_cases hb : b = a
    · rw [if_pos hb] at hx
      exact ih a (n + 1) (by omega) x hx
    · rw [if_neg hb] at hx
      rcases List.mem_cons.mp hx with rfl | hx2
      · exact hn
      · exact ih b 1 (by omega) x hx2

theorem runLengthsAux_sum {α : Type} [DecidableEq α] (l : List α) :
    ∀ (a : α) (n : ℕ), sumN (runLengthsAux a n l) = n + l.length := by
  induction l with
  | nil =>
    intro a n
    simp [runLengthsAux, sumN]
  | cons b rest ih =>
    intro a n
    rw [runLengthsAux]
    by_cases hb : b = a
    · rw [if_pos hb, ih]
      simp
      omega
    · rw [if_neg hb]
      have : sumN (n :: runLengthsAux b 1 rest) = n + sumN (runLengthsAux b 1 rest) := rfl
      rw [this, ih]
      simp
      omega

theorem runLengths_pos {α : Type} [DecidableEq α] (l : List α) :
    ∀ x ∈ runLengths l, 0 < x := by
  rcases l with _ | ⟨a, rest⟩
  · intro x hx
    exact absurd hx (by simp [runLengths])
  · exact runLengthsAux_pos rest a 1 (by omega)

theorem runLengths_sum {α : Type} [DecidableEq α] (l : List α) :
    sumN (runLengths l) = l.length := by
  rcases l with _ | ⟨a, rest⟩
  · rfl
  · rw [runLengths, runLengthsAux_sum]
    simp
    omega

theorem insertRow_length (a : Row) (l : List Row) :
    (insertRow a l).length = l.length + 1 := by
  induction l with
  | nil => rfl
  | cons b rest ih =>
    rw [insertRow]
    by_cases h : rowLE a b
    · rw [if_pos h]
      simp
    · rw [if_neg h]
      simp [ih]

theorem sortRows_length (l : List Row) : (sortRows l).length = l.length := by
  induction l with
  | nil => rfl
  | cons a rest ih =>
    rw [sortRows, insertRow_length, ih]
    rfl

theorem map_cast_pos (l : List ℕ) (h : ∀ x ∈ l, 0 < x) :
    ∀ y ∈ l.map (fun n : ℕ => (n : ℤ)), 0 < y := by
  intro y hy
  rcases List.mem_map.mp hy with ⟨n, hn, hcast⟩
  subst hcast
  exact_mod_cast h n hn

theorem sumZ_map_cast (l : List ℕ) : sumZ (l.map (fun n : ℕ => (n : ℤ))) = (sumN l : ℤ) := by
  induction l with
  | nil => rfl
  | cons a rest ih =>
    have h1 : sumZ ((a :: rest).map (fun n : ℕ => (n : ℤ)))
        = (a : ℤ) + sumZ (rest.map (fun n : ℕ => (n : ℤ))) := rfl
    have h2 : sumN (a :: rest) = a + sumN rest := rfl
    rw [h1, ih, h2]
    push_cast
    ring

/-! ### Concrete fixtures used by the witnesses -/

/-- A degenerate but well-typed EM step: parameters unchanged, log-likelihood 0. -/
def step0 : Params → Params × ℚ := fun p => (p, 0)

/-- A small concrete configuration. -/
def cfg0 : Config := ⟨1/10, 1, 1, 3, 42⟩

/-- A one-row observation matrix. -/
def obs1 : List (List ℚ) := [[0, 0]]

/-- A fifteen-row observation matrix (the shape of the spec's concrete scenario). -/
def obs15 : List (List ℚ) := List.replicate 15 [0, 0]

/-- The parameters produced by `fit step0 cfg0 obs1 [1] 1`. -/
def fitP0 : Params :=
  normalizeParams cfg0.eps (normalizeParams cfg0.eps (initParams cfg0.seed 1 obs1))

/-- A container already holding fitted parameters. -/
def c0 : Container := ⟨some fitP0⟩

/-- A matrix that is not positive definite, also after a small regularization. -/
def mNeg : List (List ℚ) := [[-1, 0], [0, -1]]

/-! ### The claims -/

/-- C1: for every valid input, `fit` never decreases the total log-likelihood
between consecutive EM iterations beyond the floating-point tolerance `guard`
(every successful run's log-likelihood trace is a `guard`-tolerant ascending
chain), and whenever an iteration's log-likelihood does decrease beyond that
tolerance the trainer returns the internal-consistency error instead of
continuing. -/
theorem C1_fit_loglik_monotone (step : Params → Params × ℚ) (cfg : Config)
    (obs : List (List ℚ)) (lengths : List ℤ) (k : ℕ) (p : Params) (tr : List ℚ)
    (hfit : fit step cfg obs lengths k = .ok (p, tr)) :
    List.Chain' (fun a b => a - cfg.guard ≤ b) tr ∧
      ∀ q l0 n, (step q).2 < l0 - cfg.guard →
        fitLoop step cfg.eps cfg.tol cfg.guard (n + 1) q l0 = .error .internalConsistency := by
  obtain ⟨hv, tr2, htr, hloop⟩ := fit_ok_elim step cfg obs lengths k p tr hfit
  constructor
  · subst htr
    exact fitLoop_ok_chain step cfg.eps cfg.tol cfg.guard _ _ _ _ _ hloop
  · intro q l0 n hdec
    rw [fitLoop, if_pos hdec]

/-- Witness for C1: a concrete successful run with its monotone trace, and a
concrete decreasing iteration that is rejected. -/
theorem C1_fit_loglik_monotone_witness :
    fit step0 cfg0 obs1 [1] 1 = .ok (fitP0, [0, 0]) ∧
      List.Chain' (fun a b => a - cfg0.guard ≤ b) [0, 0] ∧
      fitLoop step0 cfg0.eps cfg0.tol cfg0.guard 1 fitP0 10 = .error .internalConsistency := by
  have h : fit step0 cfg0 obs1 [1] 1 = .ok (fitP0, [0, 0]) := by with_unfolding_all rfl
  refine ⟨h, (C1_fit_loglik_monotone step0 cfg0 obs1 [1] 1 fitP0 [0, 0] h).1, ?_⟩
  exact (C1_fit_loglik_monotone step0 cfg0 obs1 [1] 1 fitP0 [0, 0] h).2 fitP0 10 0
    (of_decide_eq_true (by with_unfolding_all rfl))

/-- C2: every model returned by `fit` has passed through the floored
renormalization, so (with a positive floor) its initial distribution and every
transition row is a valid probability distribution with strictly positive
entries summing to exactly 1; the same renormalization is applied after every
update during training, and with a positive floor it always produces strictly
positive rows summing to 1 (no entry is floored to exactly zero). -/
theorem C2_probability_rows_valid (step : Params → Params × ℚ) (cfg : Config)
    (obs : List (List ℚ)) (lengths : List ℤ) (k : ℕ) (p : Params) (tr : List ℚ)
    (heps : 0 < cfg.eps) (hfit : fit step cfg obs lengths k = .ok (p, tr)) :
    (∀ v : List ℚ, v ≠ [] →
        (∀ x ∈ renormalize cfg.eps v, 0 < x) ∧ rowSum (renormalize cfg.eps v) = 1) ∧
      (p.pi ≠ [] → (∀ x ∈ p.pi, 0 < x) ∧ rowSum p.pi = 1) ∧
      (∀ row ∈ p.A, row ≠ [] → (∀ x ∈ row, 0 < x) ∧ rowSum row = 1) ∧
      ∃ p0, p = normalizeParams cfg.eps p0 := by
  obtain ⟨hv, tr2, htr, hloop⟩ := fit_ok_elim step cfg obs lengths k p tr hfit
  have hnorm : ∃ p1, p = normalizeParams cfg.eps p1 :=
    fitLoop_ok_normalized step cfg.eps cfg.tol cfg.guard _ _ _ _ _ hloop
      ⟨(step (initParams cfg.seed k obs)).1, rfl⟩
  obtain ⟨p1, hp1⟩ := hnorm
  refine ⟨fun v hv2 => renormalize_valid cfg.eps v heps hv2, ?_, ?_, ⟨p1, hp1⟩⟩
  · intro hpi
    have hpi1 : p.pi = renormalize cfg.eps p1.pi := by rw [hp1]; rfl
    have hne : p1.pi ≠ [] := by
      intro hnil
      rw [hpi1, hnil] at hpi
      exact hpi rfl
    rw [hpi1]
    exact renormalize_valid cfg.eps p1.pi heps hne
  · intro row hrow hrowne
    have hA : p.A = p1.A.map (renormalize cfg.eps) := by rw [hp1]; rfl
    rw [hA] at hrow
    obtain ⟨r0, hr0, rfl⟩ := List.mem_map.mp hrow
    have hne : r0 ≠ [] := by
      intro hnil
      rw [hnil] at hrowne
      exact hrowne rfl
    exact renormalize_valid cfg.eps r0 heps hne

/-- Witness for C2: the concrete fitted parameters of the `fitP0` run have a
valid initial distribution. -/
theorem C2_probability_rows_valid_witness :
    (0 : ℚ) < cfg0.eps ∧
      (fitP0.pi ≠ [] → (∀ x ∈ fitP0.pi, 0 < x) ∧ rowSum fitP0.pi = 1) := by
  have heps : (0 : ℚ) < cfg0.eps := of_decide_eq_true (by with_unfolding_all rfl)
  have h : fit step0 cfg0 obs1 [1] 1 = .ok (fitP0, [0, 0]) := by with_unfolding_all rfl
  exact ⟨heps,
    (C2_probability_rows_valid step0 cfg0 obs1 [1] 1 fitP0 [0, 0] heps h).2.1⟩

/-- C3: `fit` returns `InvalidInputError` whenever the lengths do not sum to
the number of observation rows, some length is non-positive, or the state
count is below 1 — for every step function (so the error is produced by the
validation alone, before any training computation influences the result). -/
theorem C3_fit_validates_input (step : Params → Params × ℚ) (cfg : Config)
    (obs : List (List ℚ)) (lengths : List ℤ) (k : ℕ)
    (h : sumZ lengths ≠ (obs.length : ℤ) ∨ (∃ l ∈ lengths, l ≤ 0) ∨ k < 1) :
    fit step cfg obs lengths k = .error .invalidInput := by
  have hfalse : validInput obs lengths k = false := by
    cases hvb : validInput obs lengths k
    · rfl
    · exfalso
      have hv := hvb
      rw [validInput] at hv
      simp only [Bool.and_eq_true, decide_eq_true_eq, List.all_eq_true] at hv
      obtain ⟨⟨hsum, hall⟩, hk⟩ := hv
      rcases h with h1 | ⟨l, hl, hle⟩ | h3
      · exact h1 hsum
      · exact absurd (hall l hl) (not_lt.mpr hle)
      · omega
  rw [fit, hfalse]
  simp

/-- Witness for C3: with a 15-row matrix, a lengths list containing a 0 entry
is rejected, and a lengths list summing to 14 is rejected. -/
theorem C3_fit_validates_input_witness :
    fit step0 cfg0 obs15 [5, 5, 5, 0] 3 = .error .invalidInput ∧
      fit step0 cfg0 obs15 [5, 5, 4] 3 = .error .invalidInput := by
  constructor
  · exact C3_fit_validates_input step0 cfg0 obs15 [5, 5, 5, 0] 3
      (Or.inr (Or.inl ⟨0, by decide, by decide⟩))
  · exact C3_fit_validates_input step0 cfg0 obs15 [5, 5, 4] 3
      (Or.inl (by decide))

/-- C4: on a segment of length 1 the Viterbi decoder returns exactly one state
index, namely the lowest-index argmax of `log pi[k] + B[0][k]` over the
states: the returned index is in range, its initial score dominates every
state's initial score, and every lower index scores strictly less. -/
theorem C4_decode_length_one (logpi : List ℚ) (logA : List (List ℚ)) (b0 : List ℚ)
    (hpi : logpi ≠ []) (hlen : b0.length = logpi.length) :
    viterbi logpi logA [b0] = [argmaxLowest (viterbiInit logpi b0)] ∧
      IsLeastArgmax (viterbiInit logpi b0) (argmaxLowest (viterbiInit logpi b0)) := by
  refine ⟨rfl, ?_⟩
  apply argmaxLowest_spec
  rcases logpi with _ | ⟨x, xs⟩
  · exact absurd rfl hpi
  · rcases b0 with _ | ⟨y, ys⟩
    · simp at hlen
    · simp [viterbiInit]

/-- Witness for C4: a concrete two-state model and single-row segment. -/
theorem C4_decode_length_one_witness :
    viterbi [1, 2] [[0, 0], [0, 0]] [[5, 5]] = [argmaxLowest (viterbiInit [1, 2] [5, 5])] ∧
      IsLeastArgmax (viterbiInit [1, 2] [5, 5]) (argmaxLowest (viterbiInit [1, 2] [5, 5])) :=
  C4_decode_length_one [1, 2] [[0, 0], [0, 0]] [5, 5] (by simp) (by simp)

/-- C5: the Viterbi recurrence and tie-breaking — the next score vector
satisfies `delta[t][k] = max_j(delta[t-1][j] + log A[j][k]) + B[t][k]` and the
back-pointer is the argmax of the same candidate scores with ties broken by
the lowest state index (the back-pointer's entry attains the maximum, so the
two recurrences are consistent); the best final state uses the same
lowest-index tie-break; the decoded path is exactly the back-pointer
reconstruction from the last row down to the first; and the path has one state
per observation row.  All quantities are functions of the model and segment,
so the decode is deterministic. -/
theorem C5_viterbi_recurrence (logA : List (List ℚ)) :
    (∀ prev bt k, k < bt.length →
        (deltaNext logA prev bt).getD k 0 = maxQ (transScores logA prev k) + bt.getD k 0 ∧
          (psiNext logA prev bt).getD k 0 = argmaxLowest (transScores logA prev k)) ∧
      (∀ prev k, prev ≠ [] → logA ≠ [] →
        IsLeastArgmax (transScores logA prev k) (argmaxLowest (transScores logA prev k)) ∧
          (transScores logA prev k).getD (argmaxLowest (transScores logA prev k)) 0 =
            maxQ (transScores logA prev k)) ∧
      (∀ d : List ℚ, d ≠ [] → IsLeastArgmax d (argmaxLowest d)) ∧
      (∀ logpi b0 rest,
        viterbi logpi logA (b0 :: rest) =
          backtrack (viterbiForward logA (viterbiInit logpi b0) rest).2.reverse
            (argmaxLowest (viterbiForward logA (viterbiInit logpi b0) rest).1) []) ∧
      (∀ logpi B, (viterbi logpi logA B).length = B.length) := by
  refine ⟨?_, ?_, ?_, ?_, ?_⟩
  · intro prev bt k hk
    constructor
    · rw [deltaNext, getD_map_range _ _ _ _ hk]
    · rw [psiNext, getD_map_range _ _ _ _ hk]
  · intro prev k hp hA
    have hne := transScores_ne_nil logA prev k hp hA
    exact ⟨argmaxLowest_spec _ hne, argmaxLowest_getD_eq_maxQ _ hne⟩
  · intro d hd
    exact argmaxLowest_spec d hd
  · intro logpi b0 rest
    rfl
  · intro logpi B
    exact viterbi_length logpi logA B

/-- Witness for C5: instantiation of every part on a concrete two-state model. -/
theorem C5_viterbi_recurrence_witness :
    ((deltaNext [[0, 3], [2, 1]] [1, 2] [0, 0]).getD 0 0 =
        maxQ (transScores [[0, 3], [2, 1]] [1, 2] 0) + ([0, 0] : List ℚ).getD 0 0 ∧
      (psiNext [[0, 3], [2, 1]] [1, 2] [0, 0]).getD 0 0 =
        argmaxLowest (transScores [[0, 3], [2, 1]] [1, 2] 0)) ∧
      IsLeastArgmax (transScores [[0, 3], [2, 1]] [1, 2] 0)
        (argmaxLowest (transScores [[0, 3], [2, 1]] [1, 2] 0)) ∧
      IsLeastArgmax [3, 1] (argmaxLowest [3, 1]) ∧
      viterbi [0, 1] [[0, 3], [2, 1]] [[0, 0], [0, 0]] =
        backtrack (viterbiForward [[0, 3], [2, 1]] (viterbiInit [0, 1] [0, 0]) [[0, 0]]).2.reverse
          (argmaxLowest (viterbiForward [[0, 3], [2, 1]] (viterbiInit [0, 1] [0, 0]) [[0, 0]]).1) [] ∧
      (viterbi [0, 1] [[0, 3], [2, 1]] [[0, 0], [0, 0]]).length =
        ([[0, 0], [0, 0]] : List (List ℚ)).length := by
  have h := C5_viterbi_recurrence [[0, 3], [2, 1]]
  exact ⟨h.1 [1, 2] [0, 0] 0 (by simp), (h.2.1 [1, 2] 0 (by simp) (by simp)).1,
    h.2.2.1 [3, 1] (by simp), h.2.2.2.1 [0, 1] [0, 0] [[0, 0]],
    h.2.2.2.2 [0, 1] [[0, 0], [0, 0]]⟩

/-- C6: `fit` is a deterministic function of its inputs — two runs with equal
observation matrices, segment lengths, state counts and configurations
(including the seed, which fixes the initialization) return equal results, in
particular equal parameter sets (initial distribution, transition matrix,
means and covariances). -/
theorem C6_fit_deterministic (step : Params → Params × ℚ) (cfg cfg2 : Config)
    (obs obs2 : List (List ℚ)) (lengths lengths2 : List ℤ) (k k2 : ℕ)
    (hc : cfg = cfg2) (ho : obs = obs2) (hl : lengths = lengths2) (hk : k = k2) :
    fit step cfg obs lengths k = fit step cfg2 obs2 lengths2 k2 := by
  subst hc
  subst ho
  subst hl
  subst hk
  rfl

/-- Witness for C6: two identical concrete runs agree. -/
theorem C6_fit_deterministic_witness :
    fit step0 cfg0 obs1 [1] 1 = fit step0 cfg0 obs1 [1] 1 :=
  C6_fit_deterministic step0 cfg0 cfg0 obs1 obs1 [1] [1] 1 1 rfl rfl rfl rfl

/-- C7: whenever a `fit` call through the container returns an error the
container (and hence any previously fitted parameter set) is unchanged; a
`decode` call never changes the container at all; and on success the container
holds exactly the final returned parameter set, so no partially updated
parameters are ever observable. -/
theorem C7_container_preserved (step : Params → Params × ℚ) (cfg : Config)
    (obs obs2 : List (List ℚ)) (lengths lengths2 : List ℤ) (k : ℕ) (c : Container)
    (logQ : ℚ → ℚ) (logB : List ℚ → ℕ → ℚ) :
    (∀ c2 e, containerFit step cfg obs lengths k c = (c2, .error e) → c2 = c) ∧
      (∀ c2 r, containerDecode logQ logB c obs2 lengths2 = (c2, r) → c2 = c) ∧
      (∀ c2 res, containerFit step cfg obs lengths k c = (c2, .ok res) →
        c2.fitted = some res.1) := by
  refine ⟨?_, ?_, ?_⟩
  · intro c2 e h
    rw [containerFit] at h
    split at h
    · injection h with h1 h2
      exact h1.symm
    · injection h with h1 h2
      exact absurd h2 (by simp)
  · intro c2 r h
    rw [containerDecode] at h
    split at h
    · injection h with h1 h2
      exact h1.symm
    · split at h
      · injection h with h1 h2
        exact h1.symm
      · injection h with h1 h2
        exact h1.symm
  · intro c2 res h
    rw [containerFit] at h
    split at h
    · injection h with h1 h2
      exact absurd h2 (by simp)
    · injection h with h1 h2
      injection h2 with h3
      subst h3
      rw [← h1]

/-- Witness for C7: an erroring concrete `fit` call leaves the concrete
container unchanged. -/
theorem C7_container_preserved_witness :
    c0 = c0 ∧ containerFit step0 cfg0 obs1 [2] 1 c0 = (c0, .error .invalidInput) := by
  have h : containerFit step0 cfg0 obs1 [2] 1 c0 = (c0, .error .invalidInput) := by
    with_unfolding_all rfl
  exact ⟨(C7_container_preserved step0 cfg0 obs1 obs1 [2] [2] 1 c0 (fun x => x)
    (fun _ _ => 0)).1 c0 .invalidInput h, h⟩

/-- C8: the emission model's decomposition protocol — if the decomposition of
a covariance matrix fails on a non-positive pivot, the diagonally regularized
matrix is tried exactly once more: if the retry also fails the call returns
`NonPositiveDefiniteError` (whatever the intermediate errors were), if the
retry succeeds its pivots are returned, and a first-attempt success is
returned directly; moreover every successfully returned pivot list consists of
strictly positive pivots, so no degenerate decomposition is ever produced. -/
theorem C8_cholesky_retry (r : ℚ) (m : List (List ℚ)) :
    (∀ e1 e2, cholesky m = .error e1 → cholesky (addDiag r m) = .error e2 →
        cholWithRetry r m = .error .nonPositiveDefinite) ∧
      (∀ e ds, cholesky m = .error e → cholesky (addDiag r m) = .ok ds →
        cholWithRetry r m = .ok ds) ∧
      (∀ ds, cholesky m = .ok ds → cholWithRetry r m = .ok ds) ∧
      (∀ ds, cholWithRetry r m = .ok ds → ∀ x ∈ ds, 0 < x) := by
  refine ⟨?_, ?_, ?_, ?_⟩
  · intro e1 e2 h1 h2
    have he2 : e2 = .nonPositiveDefinite := by
      rw [cholesky] at h2
      exact ldlPivots_error_eq _ _ _ h2
    rw [cholWithRetry, h1, h2, he2]
  · intro e ds h1 h2
    rw [cholWithRetry, h1, h2]
  · intro ds h1
    rw [cholWithRetry, h1]
  · intro ds h x hx
    rw [cholWithRetry] at h
    split at h
    · rename_i ds1 hc
      injection h with h2
      subst h2
      exact ldlPivots_ok_pos m.length m ds1 hc x hx
    · split at h
      · rename_i ds2 hc2
        injection h with h2
        subst h2
        exact ldlPivots_ok_pos _ _ _ hc2 x hx
      · exact absurd h (by simp)

/-- Witness for C8: a concrete negative-definite matrix fails both attempts
and surfaces `NonPositiveDefiniteError`; a concrete positive-definite matrix
succeeds with strictly positive pivots. -/
theorem C8_cholesky_retry_witness :
    cholWithRetry (1/2) mNeg = .error .nonPositiveDefinite ∧
      cholWithRetry (1/2) [[2, 0], [0, 2]] = .ok [2, 2] ∧
      ∀ x ∈ ([2, 2] : List ℚ), 0 < x := by
  have h1 : cholesky mNeg = .error .nonPositiveDefinite := by with_unfolding_all rfl
  have h2 : cholesky (addDiag (1/2) mNeg) = .error .nonPositiveDefinite := by
    with_unfolding_all rfl
  have h3 : cholesky [[2, 0], [0, 2]] = .ok [2, 2] := by with_unfolding_all rfl
  have hok : cholWithRetry (1/2) [[2, 0], [0, 2]] = .ok [2, 2] :=
    (C8_cholesky_retry (1/2) [[2, 0], [0, 2]]).2.2.1 [2, 2] h3
  exact ⟨(C8_cholesky_retry (1/2) mNeg).1 _ _ h1 h2, hok,
    (C8_cholesky_retry (1/2) [[2, 0], [0, 2]]).2.2.2 [2, 2] hok⟩

/-- C9: the E-step accumulator excludes exactly the segments whose sequence
log-likelihood is negative infinity (`none`): the recorded diagnostics are
precisely those segments, and the accumulated statistics and total
log-likelihood are the same as if only the finite-log-likelihood segments had
been processed; the accumulator is a total function, so the training iteration
never aborts because of an excluded segment. -/
theorem C9_estep_excludes_neg_inf (σ : Type) (ll : σ → Option ℚ) (st : σ → List ℚ)
    (d : ℕ) (segs : List σ) :
    (eStep ll st d segs).excluded = segs.filter (fun s => (ll s).isNone) ∧
      (eStep ll st d segs).stats =
        (eStep ll st d (segs.filter (fun s => (ll s).isSome))).stats ∧
      (eStep ll st d segs).totalLL =
        (eStep ll st d (segs.filter (fun s => (ll s).isSome))).totalLL := by
  induction segs with
  | nil => exact ⟨rfl, rfl, rfl⟩
  | cons s rest ih =>
    rcases hs : ll s with _ | q
    · refine ⟨?_, ?_, ?_⟩
      · simp only [eStep, hs, List.filter_cons, Option.isNone_none, if_true]
        rw [ih.1]
      · simp only [eStep, hs, List.filter_cons, Option.isSome_none, Bool.false_eq_true, if_false]
        exact ih.2.1
      · simp only [eStep, hs, List.filter_cons, Option.isSome_none, Bool.false_eq_true, if_false]
        exact ih.2.2
    · refine ⟨?_, ?_, ?_⟩
      · simp only [eStep, hs, List.filter_cons, Option.isNone_some, Bool.false_eq_true, if_false]
        exact ih.1
      · simp only [eStep, hs, List.filter_cons, Option.isSome_some, if_true]
        rw [ih.2.1]
      · simp only [eStep, hs, List.filter_cons, Option.isSome_some, if_true]
        rw [ih.2.2]

/-- Witness for C9: a concrete batch in which the middle segment has
log-likelihood negative infinity and is the one excluded. -/
theorem C9_estep_excludes_neg_inf_witness :
    (eStep (fun s : ℕ => if s = 1 then none else some 2) (fun _ => [1]) 1
        [0, 1, 2]).excluded =
      ([0, 1, 2].filter (fun s => ((fun s : ℕ => if s = 1 then none else some 2) s).isNone)) ∧
      (eStep (fun s : ℕ => if s = 1 then none else some 2) (fun _ => [1]) 1
          [0, 1, 2]).totalLL =
        (eStep (fun s : ℕ => if s = 1 then none else some 2) (fun _ => [1]) 1
          ([0, 1, 2].filter
            (fun s => ((fun s : ℕ => if s = 1 then none else some 2) s).isSome))).totalLL := by
  have h := C9_estep_excludes_neg_inf ℕ (fun s => if s = 1 then none else some 2)
    (fun _ => [1]) 1 [0, 1, 2]
  exact ⟨h.1, h.2.2⟩

/-- C10: for every dataset of patient/timepoint rows, the lengths list the
script builds by grouping the sorted rows on patient id has only positive
entries and sums exactly to the number of rows of the feature matrix, so the
shape precondition of `fit` and `predict` holds by construction for every
state count of at least 1. -/
theorem C10_prepare_lengths_valid (rows : List Row) :
    (∀ l ∈ (prepare rows).2, 0 < l) ∧
      sumN (prepare rows).2 = (prepare rows).1.length ∧
      ∀ k, 1 ≤ k →
        validInput (prepare rows).1 ((prepare rows).2.map (fun n : ℕ => (n : ℤ))) k = true := by
  have hsum : sumN (prepare rows).2 = (prepare rows).1.length := by
    show sumN (runLengths ((sortRows rows).map (fun r => r.patient_id))) =
      ((sortRows rows).map featuresOf).length
    rw [runLengths_sum]
    simp
  refine ⟨runLengths_pos _, hsum, ?_⟩
  intro k hk
  rw [validInput]
  simp only [Bool.and_eq_true, decide_eq_true_eq, List.all_eq_true]
  refine ⟨⟨?_, ?_⟩, hk⟩
  · rw [sumZ_map_cast, hsum]
  · refine map_cast_pos (prepare rows).2 (fun x hx => ?_)
    have hx2 : x ∈ runLengths ((sortRows rows).map (fun r => r.patient_id)) := hx
    exact runLengths_pos ((sortRows rows).map (fun r => r.patient_id)) x hx2

/-- Witness for C10: the script's own dataset yields lengths [5, 5, 5], which
are positive and pass the validation for 3 states. -/
theorem C10_prepare_lengths_valid_witness :
    (prepare data_rows).2 = [5, 5, 5] ∧
      (∀ l ∈ (prepare data_rows).2, 0 < l) ∧
      validInput (prepare data_rows).1 ((prepare data_rows).2.map (fun n : ℕ => (n : ℤ))) 3 = true :=
  ⟨rfl, (C10_prepare_lengths_valid data_rows).1,
    (C10_prepare_lengths_valid data_rows).2.2 3 (by decide)⟩

end GbmHmm
